import Mathlib

/-
Verification of the computation-graph library (`src/compgraph.rs`).

The library is a lazy, memoizing dataflow graph over `f32` scalars:

  * `InvalidatePublisher` holds weak subscriber references and broadcasts
    cache invalidations (`publish_invalidate`), lazily pruning dead ones.
  * `CachingNodeWrapper` memoizes a compute step in a one-slot cache
    (`compute`, `invalidate_cache`).
  * `InputNodeImpl` is a mutable leaf with `set` (unconditional broadcast).
  * `define_nodes!` builds a computed node from dependency handles and a
    combiner, subscribing the new node to each dependency once per edge.

Shallow embedding used here:

  * A graph is a list of nodes indexed by position (`NodeId`); `Rc` sharing
    becomes index sharing.  The static part (`Graph`) holds each node's
    kind and its publisher's subscriber list; the mutable part (`St`) holds
    the input values and the cache slots.  All nodes in the model are owned
    by the graph, i.e. live, so a `publish_invalidate` pass never prunes
    and the subscriber lists stay fixed outside construction (weak-pointer
    pruning itself is modelled separately by `publishPass`).
  * `f32` values are modelled as exact integers: every numeric literal in
    the claims (2.0, 3.0, 7.0, 17.0) and the products/sums they form are
    exactly representable in IEEE binary32, where these operations are
    exact, so exact arithmetic is faithful on them.
  * Recursive traversals (`compute`, the invalidation cascade) take fuel
    and return `none` on exhaustion; unbounded recursion in the source
    corresponds to the model returning `none` for every fuel.
  * Both traversals log events: `Ev.publish n` each time node `n`'s own
    publisher broadcasts, and `Ev.combine n` each time node `n`'s wrapped
    compute step (its combiner) is invoked.  These model respectively the
    mock invalidation subscribers and the call-counting combiners that the
    specification uses to state its counting properties.
-/

namespace CompGraph


/-- Scalar values (`type Float = f32` in the source, modelled exactly). -/
abbrev Value := Int

/-- Nodes are identified by their index in the graph's node list. -/
abbrev NodeId := Nat

/-- A dependency operand of a computed node: either an inline `Float`
constant (the `ComputeNodeRef for Float` impl) or a shared node handle. -/
inductive Operand
  | const (v : Value)
  | node (id : NodeId)
deriving DecidableEq

/-- Static description of one node: a mutable input leaf
(`InputNodeImpl`), or a computed node (`CachingNodeWrapper` around a
`NodeImpl` holding the dependency handles and the combiner body). -/
inductive NodeKind
  | input
  | computed (deps : List Operand) (comb : List Value → Value)

/-- The static part of the graph: node kinds and, for each node, the
subscriber list of its `InvalidatePublisher` (indices of dependents). -/
structure Graph where
  nodes : List NodeKind
  subs : List (List NodeId)

/-- The mutable state: stored values of inputs and cache slots of
computed nodes (entries at other indices are inert padding). -/
structure St where
  vals : List Value
  cache : List (Option Value)
deriving DecidableEq

/-- Observable events: `publish n` = node `n`'s own publisher broadcast
once; `combine n` = node `n`'s wrapped compute step ran once. -/
inductive Ev
  | publish (n : NodeId)
  | combine (n : NodeId)
deriving DecidableEq

/-- Whether `n` names a computed (cache-wrapped) node of `g`. -/
def isComputedN (g : Graph) (n : NodeId) : Bool :=
  match g.nodes[n]? with
  | some (NodeKind.computed _ _) => true
  | _ => false

/-- Whether `n` names an input node of `g`. -/
def isInputN (g : Graph) (n : NodeId) : Bool :=
  match g.nodes[n]? with
  | some NodeKind.input => true
  | _ => false

/-- The subscription edge relation: `b` is on `a`'s subscriber list, i.e.
invalidating `a` notifies `b`.  For graphs built by `defineNode` these
edges mirror the dependency edges, dependency to dependent. -/
def subEdge (g : Graph) (a b : NodeId) : Prop := b ∈ g.subs.getD a []

/-- The dependency edge relation: computed node `a` holds `b` among its
dependency operands, so computing `a` pulls the value of `b`.  These are
the owning edges, dependent to dependency — the opposite direction of
`subEdge`. -/
def depEdge (g : Graph) (a b : NodeId) : Prop :=
  ∃ deps comb, g.nodes[a]? = some (NodeKind.computed deps comb) ∧
    Operand.node b ∈ deps

/-- Evaluate one operand of a compute step: constants yield themselves
(`ComputeNodeRef for Float`), node handles call the given evaluator. -/
def evalOp (f : St → NodeId → Option (Value × St × List Ev)) (st : St) :
    Operand → Option (Value × St × List Ev)
  | Operand.const c => some (c, st, [])
  | Operand.node m => f st m

/-- Evaluate the dependencies of a compute step left to right in declared
order, threading the state and concatenating the event logs.  This is the
body that `define_nodes!` generates:
`let a = self.a.compute(); let b = self.b.compute(); ...`. -/
def evalDeps (f : St → NodeId → Option (Value × St × List Ev)) :
    St → List Operand → Option (List Value × St × List Ev)
  | st, [] => some ([], st, [])
  | st, d :: rest =>
    match evalOp f st d with
    | none => none
    | some (v, st1, e1) =>
      match evalDeps f st1 rest with
      | none => none
      | some (vs, st2, e2) => some (v :: vs, st2, e1 ++ e2)

/-- `compute()` on node `n`.  Inputs return their stored value
(`InputNodeImpl::compute`).  Computed nodes follow
`CachingNodeWrapper::compute`: return the cached value if the slot is
full, otherwise run the wrapped step (dependencies in declared order,
then the combiner — logged as `Ev.combine n`), store the result in the
slot and return it.  `none` means the fuel ran out (the source would
still be recursing). -/
def computeNode (g : Graph) : Nat → St → NodeId → Option (Value × St × List Ev)
  | 0, _, _ => none
  | fuel + 1, st, n =>
    match g.nodes[n]? with
    | none => none
    | some NodeKind.input => some (st.vals.getD n 0, st, [])
    | some (NodeKind.computed deps comb) =>
      match st.cache.getD n none with
      | some v => some (v, st, [])
      | none =>
        match evalDeps (computeNode g fuel) st deps with
        | none => none
        | some (vs, st1, e1) =>
          some (comb vs, St.mk st1.vals (st1.cache.set n (some (comb vs))),
            e1 ++ [Ev.combine n])

/-- One `publish_invalidate` pass: invoke `f` (the invalidation) on each
subscriber in list order, threading the state.  In the global model every
subscriber is owned by the graph, hence live, so the pass never prunes. -/
def publishAll (f : St → NodeId → Option (St × List Ev)) :
    St → List NodeId → Option (St × List Ev)
  | st, [] => some (st, [])
  | st, s :: rest =>
    match f st s with
    | none => none
    | some (st1, e1) =>
      match publishAll f st1 rest with
      | none => none
      | some (st2, e2) => some (st2, e1 ++ e2)

/-- `CachingNodeWrapper::invalidate_cache` on node `n`: if the slot is
full, clear it and publish on `n`'s own publisher (logged as
`Ev.publish n`, then the cascade into the subscribers); if the slot is
already empty, do nothing.  Only computed nodes implement
`InvalidateCacheMut`, so any other target is a modelling error (`none`). -/
def invalidateCache (g : Graph) : Nat → St → NodeId → Option (St × List Ev)
  | 0, _, _ => none
  | fuel + 1, st, n =>
    match g.nodes[n]? with
    | some (NodeKind.computed _ _) =>
      match st.cache.getD n none with
      | none => some (st, [])
      | some _ =>
        match publishAll (invalidateCache g fuel)
            (St.mk st.vals (st.cache.set n none)) (g.subs.getD n []) with
        | none => none
        | some (st2, e) => some (st2, Ev.publish n :: e)
    | _ => none

/-- `InputNodeRef::set` on input `n`: unconditionally overwrite the stored
value (no comparison with the old value) and publish on the input's own
publisher, cascading invalidation into the subscribers. -/
def setInput (g : Graph) (fuel : Nat) (st : St) (n : NodeId) (v : Value) :
    Option (St × List Ev) :=
  match g.nodes[n]? with
  | some NodeKind.input =>
    match publishAll (invalidateCache g fuel)
        (St.mk (st.vals.set n v) st.cache) (g.subs.getD n []) with
    | none => none
    | some (st2, e) => some (st2, Ev.publish n :: e)
  | _ => none

/-- `create_input()`: append a fresh input node with stored value `0.0`
and an empty subscriber list; its id is the old length. -/
def createInput (g : Graph) (st : St) : Graph × St × NodeId :=
  (Graph.mk (g.nodes ++ [NodeKind.input]) (g.subs ++ [[]]),
   St.mk (st.vals ++ [0]) (st.cache ++ [none]),
   g.nodes.length)

/-- The node ids among a dependency list (constants dropped). -/
def depIds (l : List Operand) : List NodeId :=
  l.filterMap fun d =>
    match d with
    | Operand.const _ => none
    | Operand.node m => some m

/-- The subscription loop of `define_nodes!`: for each dependency in
declared order, push the new node onto that dependency's subscriber list
(`subscribe_to_invalidate`); constants subscribe nobody. -/
def subscribeDeps (subs : List (List NodeId)) (newId : NodeId) :
    List Operand → List (List NodeId)
  | [] => subs
  | Operand.const _ :: rest => subscribeDeps subs newId rest
  | Operand.node m :: rest =>
    subscribeDeps (subs.set m (subs.getD m [] ++ [newId])) newId rest

/-- A constructor generated by `define_nodes!`: append a computed node
with the given dependency handles and combiner, an empty cache slot and a
fresh (empty) publisher, then subscribe it to each dependency once per
edge; its id is the old length. -/
def defineNode (g : Graph) (st : St) (deps : List Operand)
    (comb : List Value → Value) : Graph × St × NodeId :=
  (Graph.mk (g.nodes ++ [NodeKind.computed deps comb])
     (subscribeDeps (g.subs ++ [[]]) g.nodes.length deps),
   St.mk (st.vals ++ [0]) (st.cache ++ [none]),
   g.nodes.length)

/-- One `InvalidatePublisher::publish_invalidate` pass in isolation, with
weak references made explicit: an entry is `some t` when its target `t`
is still live (`upgrade()` succeeds) and `none` when the target is gone.
Mirrors `Vec::retain`: visit entries front to back, fire the invalidation
on each live target (collected in order in the second component) and keep
exactly the live entries (first component). -/
def publishPass : List (Option Nat) → List (Option Nat) × List Nat
  | [] => ([], [])
  | none :: rest => publishPass rest
  | some t :: rest =>
    (some t :: (publishPass rest).1, t :: (publishPass rest).2)

/-- Combiner of the generated `add(a, b) { a + b }` node. -/
def addComb : List Value → Value := fun vs => vs.getD 0 0 + vs.getD 1 0

/-- Combiner of the generated `mul(a, b) { a * b }` node. -/
def mulComb : List Value → Value := fun vs => vs.getD 0 0 * vs.getD 1 0

/-- A one-dependency pass-through combiner, used in example graphs. -/
def idComb : List Value → Value := fun vs => vs.getD 0 0

/-- The cache slot of node `k` in state `st` (`none` = dirty/absent). -/
def cacheD (st : St) (k : NodeId) : Option Value := st.cache.getD k none

/-- Invariants of one invalidation cascade from `st` to `st'` with event
log `evs`: input values untouched, cache length fixed, empty slots stay
empty, every slot change is a clean-to-dirty transition announced by a
broadcast, every broadcast comes from a computed node whose slot was full
before and empty after, each node broadcasts at most once, and every
broadcaster satisfies the reachability bound `reachP`. -/
structure InvOut (g : Graph) (reachP : NodeId → Prop) (st st' : St)
    (evs : List Ev) : Prop where
  vals_eq : st'.vals = st.vals
  clen : st'.cache.length = st.cache.length
  mono : ∀ k, cacheD st k = none → cacheD st' k = none
  changed_pub : ∀ k, cacheD st' k ≠ cacheD st k → Ev.publish k ∈ evs
  pub_spec : ∀ k, Ev.publish k ∈ evs →
    cacheD st k ≠ none ∧ cacheD st' k = none ∧ isComputedN g k = true
  evs_pub : ∀ e, e ∈ evs → ∃ k, e = Ev.publish k
  pub_once : ∀ k, evs.count (Ev.publish k) ≤ 1
  pub_reach : ∀ k, Ev.publish k ∈ evs → reachP k

/-- Conclusions of one successful `invalidate_cache` call on `n`:
the cascade invariants with broadcasters confined to `n` and its
transitive dependents, `n`'s own slot empty afterwards, and every
broadcaster's direct subscribers' slots empty afterwards. -/
def InvCall (g : Graph) (fuel : Nat) : Prop :=
  ∀ st n st' evs, invalidateCache g fuel st n = some (st', evs) →
    InvOut g (fun k => k = n ∨ Relation.TransGen (subEdge g) n k) st st' evs ∧
    cacheD st' n = none ∧
    ∀ k, Ev.publish k ∈ evs → ∀ s ∈ g.subs.getD k [], cacheD st' s = none

/-- Conclusions of one successful `publish_invalidate` pass over the
subscriber list `l`, cascading with `invalidateCache`. -/
def InvList (g : Graph) (fuel : Nat) : Prop :=
  ∀ l st st' evs, publishAll (invalidateCache g fuel) st l = some (st', evs) →
    InvOut g (fun k => ∃ s ∈ l, k = s ∨ Relation.TransGen (subEdge g) s k)
      st st' evs ∧
    (∀ s ∈ l, cacheD st' s = none) ∧
    ∀ k, Ev.publish k ∈ evs → ∀ s ∈ g.subs.getD k [], cacheD st' s = none

/-- Invariants of one `compute()` traversal from `st` to `st'` with event
log `evs`: input values untouched, cache length fixed, full slots
untouched (never overwritten or cleared), every slot change is announced
by a combiner invocation, every combiner invocation happened on a node
whose slot was empty before and is full after, and every event is a
combiner invocation — in particular `compute()` never broadcasts. -/
structure CompOut (st st' : St) (evs : List Ev) : Prop where
  vals_eq : st'.vals = st.vals
  clen : st'.cache.length = st.cache.length
  mono : ∀ k, cacheD st k ≠ none → cacheD st' k = cacheD st k
  changed_comb : ∀ k, cacheD st' k ≠ cacheD st k → Ev.combine k ∈ evs
  comb_spec : ∀ k, Ev.combine k ∈ evs →
    cacheD st k = none ∧ cacheD st' k ≠ none
  evs_comb : ∀ e, e ∈ evs → ∃ k, e = Ev.combine k

/-- Per-call compute invariant, for states whose cache list is aligned
with the node list. -/
def CompCall (g : Graph) (fuel : Nat) : Prop :=
  ∀ st n v st' evs, st.cache.length = g.nodes.length →
    computeNode g fuel st n = some (v, st', evs) → CompOut st st' evs

/-- A topological-rank certificate for the dependency relation: each
dependency of a computed node is a valid id of strictly smaller rank.
Such a certificate exists exactly for the acyclic graphs the library's
contract demands. -/
def RankOk (g : Graph) (rank : NodeId → Nat) : Prop :=
  ∀ n deps comb, g.nodes[n]? = some (NodeKind.computed deps comb) →
    ∀ m, Operand.node m ∈ deps → m < g.nodes.length ∧ rank m < rank n

/-- A topological-rank certificate for the subscription relation: each
subscriber is a valid computed node of strictly larger rank (the mirror
image of `RankOk`, since subscription edges run dependency → dependent). -/
def SubsOk (g : Graph) (rank : NodeId → Nat) : Prop :=
  ∀ a s, s ∈ g.subs.getD a [] → isComputedN g s = true ∧ rank a < rank s

/-- In an acyclic graph, every combiner run during `compute()` on `n`
belongs to a node of rank at most `rank n`. -/
def RankEvs (g : Graph) (rank : NodeId → Nat) (fuel : Nat) : Prop :=
  ∀ st n v st' evs, computeNode g fuel st n = some (v, st', evs) →
    ∀ k, Ev.combine k ∈ evs → rank k ≤ rank n

/-- A one-node cyclic graph: the computed node 0 depends on itself.  Such
a graph cannot be built through `create_input`/`define_nodes!`, but it is
the violation of the acyclicity precondition the specification discusses. -/
def gCyc : Graph := Graph.mk [NodeKind.computed [Operand.node 0] idComb] [[0]]

/-- A state for `gCyc` with an empty cache slot. -/
def stCyc : St := St.mk [0] [none]

/- Concrete graphs used in counterexamples and witnesses. -/

/-- Two-node line: input 0 with a single computed dependent 1. -/
def gLine : Graph :=
  Graph.mk [NodeKind.input, NodeKind.computed [Operand.node 0] idComb] [[1], []]

/-- State for `gLine`: input value 4, both cache slots empty (fresh). -/
def stLine : St := St.mk [4, 0] [none, none]

/-- State for `gLine` after computing node 1: its slot holds 4. -/
def stLineFull : St := St.mk [4, 0] [none, some 4]

/-- Diamond: input 0 feeds computed 1 and 2, which both feed computed 3. -/
def gDia : Graph :=
  Graph.mk
    [NodeKind.input, NodeKind.computed [Operand.node 0] idComb,
     NodeKind.computed [Operand.node 0] idComb,
     NodeKind.computed [Operand.node 1, Operand.node 2] addComb]
    [[1, 2], [3], [3], []]

/-- State for `gDia` with every computed slot full (after a full compute). -/
def stDia : St := St.mk [5, 0, 0, 0] [none, some 5, some 5, some 10]

/-- State for `gDia` with only node 3's slot full. -/
def stDiaPart : St := St.mk [5, 0, 0, 0] [none, none, none, some 10]

/-- One input node, for exercising `defineNode`. -/
def gBase : Graph := Graph.mk [NodeKind.input] [[]]

/-- State for `gBase`. -/
def stBase : St := St.mk [5] [none]

/-- The `mul(2.0, 7.0)` node of literal scenario 1, built from nothing. -/
def build8a : Graph × St × NodeId :=
  defineNode (Graph.mk [] []) (St.mk [] []) [Operand.const 2, Operand.const 7] mulComb

/-- The full `add(3.0, mul(2.0, 7.0))` graph of literal scenario 1. -/
def build8b : Graph × St × NodeId :=
  defineNode build8a.1 build8a.2.1 [Operand.const 3, Operand.node build8a.2.2] addComb

instance subEdgeDec (g : Graph) (a b : NodeId) : Decidable (subEdge g a b) :=
  inferInstanceAs (Decidable (b ∈ g.subs.getD a []))

/- Small `List.getD`/`List.set` facts used throughout. -/

theorem getD_set_self {α : Type} (l : List α) (n : Nat) (a d : α)
    (h : n < l.length) : (l.set n a).getD n d = a := by
  rw [List.getD_eq_getElem?_getD, List.getElem?_set_self h]
  rfl

theorem getD_set_ne {α : Type} (l : List α) {n m : Nat} (a d : α)
    (h : n ≠ m) : (l.set n a).getD m d = l.getD m d := by
  rw [List.getD_eq_getElem?_getD, List.getElem?_set_ne h,
    ← List.getD_eq_getElem?_getD]

theorem cacheD_eq (st : St) (k : NodeId) : cacheD st k = st.cache.getD k none := rfl

theorem lt_length_of_getD_ne_none {l : List (Option Value)} {n : Nat}
    (h : l.getD n none ≠ none) : n < l.length := by
  by_contra hc
  push_neg at hc
  exact h (List.getD_eq_default _ _ hc)

theorem invOut_nil (g : Graph) (reachP : NodeId → Prop) (st : St) :
    InvOut g reachP st st [] := by
  refine ⟨rfl, rfl, fun k h => h, fun k h => absurd rfl h,
    fun k hk => ?_, fun e he => ?_, fun k => ?_, fun k hk => ?_⟩
  · simp at hk
  · simp at he
  · simp
  · simp at hk

theorem InvOut.weaken {g : Graph} {P Q : NodeId → Prop} {st st' : St}
    {evs : List Ev} (h : InvOut g P st st' evs) (imp : ∀ k, P k → Q k) :
    InvOut g Q st st' evs :=
  ⟨h.vals_eq, h.clen, h.mono, h.changed_pub, h.pub_spec, h.evs_pub,
   h.pub_once, fun k hk => imp k (h.pub_reach k hk)⟩

theorem invOut_compose {g : Graph} {P Q : NodeId → Prop} {st st1 st2 : St}
    {e1 e2 : List Ev} (h1 : InvOut g P st st1 e1)
    (h2 : InvOut g Q st1 st2 e2) :
    InvOut g (fun k => P k ∨ Q k) st st2 (e1 ++ e2) := by
  refine ⟨h2.vals_eq.trans h1.vals_eq, h2.clen.trans h1.clen, ?_, ?_, ?_, ?_, ?_, ?_⟩
  · exact fun k hk => h2.mono k (h1.mono k hk)
  · intro k hk
    rw [List.mem_append]
    by_cases hmid : cacheD st1 k = cacheD st k
    · exact Or.inr (h2.changed_pub k (by rw [hmid]; exact hk))
    · exact Or.inl (h1.changed_pub k hmid)
  · intro k hk
    rcases List.mem_append.mp hk with hk | hk
    · obtain ⟨ha, hb, hc⟩ := h1.pub_spec k hk
      exact ⟨ha, h2.mono k hb, hc⟩
    · obtain ⟨ha, hb, hc⟩ := h2.pub_spec k hk
      refine ⟨fun hcon => ha (h1.mono k hcon), hb, hc⟩
  · intro e he
    rcases List.mem_append.mp he with he | he
    · exact h1.evs_pub e he
    · exact h2.evs_pub e he
  · intro k
    rw [List.count_append]
    by_cases hk : Ev.publish k ∈ e1
    · have hnot : Ev.publish k ∉ e2 := by
        intro hk2
        exact (h2.pub_spec k hk2).1 (h1.pub_spec k hk).2.1
      have := h1.pub_once k
      rw [List.count_eq_zero.mpr hnot]
      omega
    · have := h2.pub_once k
      rw [List.count_eq_zero.mpr hk]
      omega
  · intro k hk
    rcases List.mem_append.mp hk with hk | hk
    · exact Or.inl (h1.pub_reach k hk)
    · exact Or.inr (h2.pub_reach k hk)

theorem publishAll_inv (g : Graph) (fuel : Nat) (h : InvCall g fuel) :
    InvList g fuel := by
  intro l
  induction l with
  | nil =>
    intro st st' evs hp
    simp only [publishAll, Option.some.injEq, Prod.mk.injEq] at hp
    obtain ⟨rfl, rfl⟩ := hp
    refine ⟨invOut_nil .., ?_, ?_⟩
    · intro t ht
      simp at ht
    · intro k hk
      simp at hk
  | cons s rest ih =>
    intro st st' evs hp
    simp only [publishAll] at hp
    split at hp
    · simp at hp
    · rename_i st1 e1 heq1
      split at hp
      · simp at hp
      · rename_i st2 e2 heq2
        simp only [Option.some.injEq, Prod.mk.injEq] at hp
        obtain ⟨rfl, rfl⟩ := hp
        obtain ⟨O1, K1, PS1⟩ := h st s st1 e1 heq1
        obtain ⟨O2, F2, PS2⟩ := ih st1 st2 e2 heq2
        refine ⟨(invOut_compose O1 O2).weaken ?_, ?_, ?_⟩
        · rintro k (hk | ⟨t, ht, hk⟩)
          · exact ⟨s, List.mem_cons_self .., hk⟩
          · exact ⟨t, List.mem_cons_of_mem _ ht, hk⟩
        · intro t ht
          rcases List.mem_cons.mp ht with ht | ht
          · exact ht ▸ O2.mono t (ht ▸ K1)
          · exact F2 t ht
        · intro k hk t ht
          rcases List.mem_append.mp hk with hk | hk
          · exact O2.mono t (PS1 k hk t ht)
          · exact PS2 k hk t ht

theorem invalidate_inv (g : Graph) : ∀ fuel, InvCall g fuel := by
  intro fuel
  induction fuel with
  | zero =>
    intro st n st' evs h
    simp [invalidateCache] at h
  | succ f ihf =>
    intro st n st' evs h
    have hlist := publishAll_inv g f ihf
    simp only [invalidateCache] at h
    split at h
    · rename_i deps comb heqk
      split at h
      · rename_i heqc
        simp only [Option.some.injEq, Prod.mk.injEq] at h
        obtain ⟨rfl, rfl⟩ := h
        refine ⟨invOut_nil .., heqc, ?_⟩
        intro k hk
        simp at hk
      · rename_i v heqc
        split at h
        · simp at h
        · rename_i st2 e2 heq2
          simp only [Option.some.injEq, Prod.mk.injEq] at h
          obtain ⟨rfl, rfl⟩ := h
          have hn : n < st.cache.length :=
            lt_length_of_getD_ne_none (by rw [heqc]; simp)
          set st1 : St := St.mk st.vals (st.cache.set n none) with hst1
          have hst1n : cacheD st1 n = none := getD_set_self _ _ _ _ hn
          obtain ⟨O, F, PS⟩ := hlist (g.subs.getD n []) st1 st2 e2 heq2
          have hcomp : isComputedN g n = true := by
            unfold isComputedN
            rw [heqk]
          have hfin : cacheD st2 n = none := O.mono n hst1n
          have hst1_ne : ∀ k, k ≠ n → cacheD st1 k = cacheD st k := by
            intro k hkn
            exact getD_set_ne _ _ _ (fun hc => hkn hc.symm)
          have hnot_tail : Ev.publish n ∉ e2 := by
            intro hmem
            exact (O.pub_spec n hmem).1 hst1n
          refine ⟨?_, hfin, ?_⟩
          · refine ⟨?_, ?_, ?_, ?_, ?_, ?_, ?_, ?_⟩
            · exact O.vals_eq
            · rw [O.clen]
              exact List.length_set ..
            · intro k hk
              refine O.mono k ?_
              by_cases hkn : k = n
              · exact hkn ▸ hst1n
              · rw [hst1_ne k hkn]
                exact hk
            · intro k hk
              by_cases hkn : k = n
              · exact hkn ▸ List.mem_cons_self ..
              · refine List.mem_cons_of_mem _ (O.changed_pub k ?_)
                rw [hst1_ne k hkn]
                exact hk
            · intro k hk
              rcases List.mem_cons.mp hk with hk | hk
              · have hkn : k = n := by simpa using hk
                subst hkn
                refine ⟨?_, hfin, hcomp⟩
                rw [cacheD_eq, heqc]
                simp
              · obtain ⟨ha, hb, hc⟩ := O.pub_spec k hk
                have hkn : k ≠ n := by
                  intro hcon
                  exact ha (hcon ▸ hst1n)
                rw [hst1_ne k hkn] at ha
                exact ⟨ha, hb, hc⟩
            · intro e he
              rcases List.mem_cons.mp he with he | he
              · exact ⟨n, he⟩
              · exact O.evs_pub e he
            · intro k
              rw [List.count_cons]
              by_cases hkn : k = n
              · subst hkn
                rw [List.count_eq_zero.mpr hnot_tail]
                simp
              · have hne : (Ev.publish n == Ev.publish k) = false := by
                  refine beq_eq_false_iff_ne.mpr ?_
                  intro hcon
                  refine hkn ?_
                  injection hcon with h
                  exact h.symm
                rw [hne]
                simpa using O.pub_once k
            · intro k hk
              rcases List.mem_cons.mp hk with hk | hk
              · left
                simpa using hk
              · obtain ⟨s, hs, hreach⟩ := O.pub_reach k hk
                have hedge : subEdge g n s := hs
                right
                rcases hreach with hreach | hreach
                · exact hreach ▸ Relation.TransGen.single hedge
                · exact Relation.TransGen.head hedge hreach
          · intro k hk t ht
            rcases List.mem_cons.mp hk with hk | hk
            · have hkn : k = n := by simpa using hk
              subst hkn
              exact F t ht
            · exact PS k hk t ht
    · exact absurd h (by simp)

theorem lt_of_getElem?_some {α : Type} {l : List α} {n : Nat} {a : α}
    (h : l[n]? = some a) : n < l.length := by
  by_contra hc
  push_neg at hc
  rw [List.getElem?_eq_none hc] at h
  cases h

theorem isComputedN_iff {g : Graph} {n : NodeId} :
    isComputedN g n = true ↔
      ∃ deps comb, g.nodes[n]? = some (NodeKind.computed deps comb) := by
  unfold isComputedN
  split
  · rename_i deps comb heq
    simp [heq]
  · rename_i hnc
    constructor
    · intro h
      cases h
    · rintro ⟨deps, comb, heq⟩
      exact absurd heq (hnc deps comb)

/-- Anatomy of a successful `set` call: the target is an input node,
the value is stored first, the input's own publisher broadcasts once
(head of the log), and the rest of the log is a well-behaved
invalidation cascade over the input's subscribers. -/
theorem setInput_spec (g : Graph) (fuel : Nat) (st : St) (n : NodeId)
    (v : Value) (st' : St) (evs : List Ev)
    (h : setInput g fuel st n v = some (st', evs)) :
    g.nodes[n]? = some NodeKind.input ∧
    ∃ e, evs = Ev.publish n :: e ∧
      InvOut g (fun k => Relation.TransGen (subEdge g) n k)
        (St.mk (st.vals.set n v) st.cache) st' e ∧
      (∀ s ∈ g.subs.getD n [], cacheD st' s = none) ∧
      (∀ k, Ev.publish k ∈ e → ∀ s ∈ g.subs.getD k [], cacheD st' s = none) := by
  unfold setInput at h
  split at h
  · rename_i heqk
    split at h
    · simp at h
    · rename_i st2 e2 heq2
      simp only [Option.some.injEq, Prod.mk.injEq] at h
      obtain ⟨rfl, rfl⟩ := h
      obtain ⟨O, F, PS⟩ :=
        publishAll_inv g fuel (invalidate_inv g fuel) _ _ _ _ heq2
      refine ⟨heqk, e2, rfl, O.weaken ?_, F, PS⟩
      rintro k ⟨s, hs, hk | hk⟩
      · exact hk ▸ Relation.TransGen.single hs
      · exact Relation.TransGen.head hs hk
  · simp at h

theorem compOut_nil (st : St) : CompOut st st [] := by
  refine ⟨rfl, rfl, fun k _ => rfl, fun k h => absurd rfl h,
    fun k hk => ?_, fun e he => ?_⟩
  · simp at hk
  · simp at he

theorem compOut_compose {st st1 st2 : St} {e1 e2 : List Ev}
    (h1 : CompOut st st1 e1) (h2 : CompOut st1 st2 e2) :
    CompOut st st2 (e1 ++ e2) := by
  refine ⟨h2.vals_eq.trans h1.vals_eq, h2.clen.trans h1.clen, ?_, ?_, ?_, ?_⟩
  · intro k hk
    have hm := h1.mono k hk
    rw [h2.mono k (by rw [hm]; exact hk), hm]
  · intro k hk
    rw [List.mem_append]
    by_cases hmid : cacheD st1 k = cacheD st k
    · exact Or.inr (h2.changed_comb k (by rw [hmid]; exact hk))
    · exact Or.inl (h1.changed_comb k hmid)
  · intro k hk
    rcases List.mem_append.mp hk with hk | hk
    · obtain ⟨ha, hb⟩ := h1.comb_spec k hk
      refine ⟨ha, ?_⟩
      rw [h2.mono k hb]
      exact hb
    · obtain ⟨ha, hb⟩ := h2.comb_spec k hk
      refine ⟨?_, hb⟩
      by_contra hcon
      exact hcon ((h1.mono k hcon).symm.trans ha)
  · intro e he
    rcases List.mem_append.mp he with he | he
    · exact h1.evs_comb e he
    · exact h2.evs_comb e he

theorem evalOp_comp (g : Graph) (fuel : Nat) (h : CompCall g fuel) :
    ∀ d st v st' evs, st.cache.length = g.nodes.length →
      evalOp (computeNode g fuel) st d = some (v, st', evs) →
      CompOut st st' evs := by
  intro d st v st' evs hal hp
  cases d with
  | const c =>
    simp only [evalOp, Option.some.injEq, Prod.mk.injEq] at hp
    obtain ⟨_, rfl, rfl⟩ := hp
    exact compOut_nil st
  | node m => exact h st m v st' evs hal hp

theorem evalDeps_comp (g : Graph) (fuel : Nat) (h : CompCall g fuel) :
    ∀ deps st vs st' evs, st.cache.length = g.nodes.length →
      evalDeps (computeNode g fuel) st deps = some (vs, st', evs) →
      CompOut st st' evs := by
  intro deps
  induction deps with
  | nil =>
    intro st vs st' evs hal hp
    simp only [evalDeps, Option.some.injEq, Prod.mk.injEq] at hp
    obtain ⟨_, rfl, rfl⟩ := hp
    exact compOut_nil st
  | cons d rest ih =>
    intro st vs st' evs hal hp
    simp only [evalDeps] at hp
    split at hp
    · simp at hp
    · rename_i v1 st1 e1 heq1
      split at hp
      · simp at hp
      · rename_i vs2 st2 e2 heq2
        simp only [Option.some.injEq, Prod.mk.injEq] at hp
        obtain ⟨_, rfl, rfl⟩ := hp
        have O1 := evalOp_comp g fuel h d st v1 st1 e1 hal heq1
        have O2 := ih st1 vs2 st2 e2 (O1.clen.trans hal) heq2
        exact compOut_compose O1 O2

theorem compute_comp (g : Graph) : ∀ fuel, CompCall g fuel := by
  intro fuel
  induction fuel with
  | zero =>
    intro st n v st' evs hal h
    simp [computeNode] at h
  | succ f ihf =>
    intro st n v st' evs hal h
    simp only [computeNode] at h
    split at h
    · simp at h
    · simp only [Option.some.injEq, Prod.mk.injEq] at h
      obtain ⟨_, rfl, rfl⟩ := h
      exact compOut_nil st
    · rename_i deps comb heqk
      split at h
      · rename_i v0 heqc
        simp only [Option.some.injEq, Prod.mk.injEq] at h
        obtain ⟨_, rfl, rfl⟩ := h
        exact compOut_nil st
      · rename_i heqc
        split at h
        · simp at h
        · rename_i vs st1 e1 heq1
          simp only [Option.some.injEq, Prod.mk.injEq] at h
          obtain ⟨hv, rfl, rfl⟩ := h
          have O1 := evalDeps_comp g f ihf deps st vs st1 e1 hal heq1
          have hn : n < g.nodes.length := lt_of_getElem?_some heqk
          have hn1 : n < st1.cache.length := by
            rw [O1.clen, hal]
            exact hn
          have hsetS : cacheD (St.mk st1.vals (st1.cache.set n (some (comb vs)))) n
              = some (comb vs) := getD_set_self _ _ _ _ hn1
          have hsetN : ∀ k, k ≠ n →
              cacheD (St.mk st1.vals (st1.cache.set n (some (comb vs)))) k
                = cacheD st1 k := by
            intro k hk
            exact getD_set_ne _ _ _ (fun hc => hk hc.symm)
          have heqc' : cacheD st n = none := heqc
          refine ⟨O1.vals_eq, ?_, ?_, ?_, ?_, ?_⟩
          · show (st1.cache.set n (some (comb vs))).length = st.cache.length
            rw [List.length_set]
            exact O1.clen
          · intro k hk
            have hkn : k ≠ n := fun hc => hk (hc ▸ heqc')
            rw [hsetN k hkn]
            exact O1.mono k hk
          · intro k hk
            by_cases hkn : k = n
            · subst hkn
              exact List.mem_append.mpr (Or.inr (List.mem_singleton.mpr rfl))
            · rw [hsetN k hkn] at hk
              exact List.mem_append.mpr (Or.inl (O1.changed_comb k hk))
          · intro k hk
            rcases List.mem_append.mp hk with hk | hk
            · obtain ⟨ha, hb⟩ := O1.comb_spec k hk
              refine ⟨ha, ?_⟩
              by_cases hkn : k = n
              · subst hkn
                rw [hsetS]
                simp
              · rw [hsetN k hkn]
                exact hb
            · have hkn : k = n := by simpa using hk
              subst hkn
              refine ⟨heqc', ?_⟩
              rw [hsetS]
              simp
          · intro e he
            rcases List.mem_append.mp he with he | he
            · exact O1.evs_comb e he
            · exact ⟨n, by simpa using he⟩

/-- Equation for `compute()` on an input node. -/
theorem compute_input (g : Graph) (fuel : Nat) (st : St) (n : NodeId)
    (heqk : g.nodes[n]? = some NodeKind.input) :
    computeNode g (fuel + 1) st n = some (st.vals.getD n 0, st, []) := by
  simp only [computeNode]
  rw [heqk]

/-- Equation for `compute()` on a computed node with a full cache slot:
the stored value is returned, the state is unchanged and the wrapped
step is not invoked (no events). -/
theorem compute_hit (g : Graph) (fuel : Nat) (st : St) (n : NodeId)
    (v : Value) (hcomp : isComputedN g n = true)
    (heqc : st.cache.getD n none = some v) :
    computeNode g (fuel + 1) st n = some (v, st, []) := by
  obtain ⟨deps, comb, heqk⟩ := isComputedN_iff.mp hcomp
  simp only [computeNode]
  rw [heqk, heqc]

/-- Equation for `compute()` on a computed node with an empty cache slot:
the dependencies are evaluated in declared order, the combiner is applied
exactly once to the resulting value list (the final `Ev.combine n`), and
the result is stored in the slot and returned. -/
theorem compute_miss (g : Graph) (fuel : Nat) (st : St) (n : NodeId)
    (deps : List Operand) (comb : List Value → Value)
    (vs : List Value) (st1 : St) (e1 : List Ev)
    (heqk : g.nodes[n]? = some (NodeKind.computed deps comb))
    (heqc : st.cache.getD n none = none)
    (heqd : evalDeps (computeNode g fuel) st deps = some (vs, st1, e1)) :
    computeNode g (fuel + 1) st n =
      some (comb vs, St.mk st1.vals (st1.cache.set n (some (comb vs))),
        e1 ++ [Ev.combine n]) := by
  simp only [computeNode, heqk, heqc, heqd]

/-- Case analysis on a successful `compute()` call: either the node is an
input (state unchanged, stored value returned), or it is a computed node
and afterwards its slot holds the returned value; in the latter case the
call was either a cache hit (state unchanged, no events) or a miss (slot
was empty, and the node's own step ran). -/
theorem compute_shape (g : Graph) (fuel : Nat) (st : St) (n : NodeId)
    (v : Value) (st' : St) (evs : List Ev)
    (hal : st.cache.length = g.nodes.length)
    (h : computeNode g fuel st n = some (v, st', evs)) :
    (g.nodes[n]? = some NodeKind.input ∧ v = st.vals.getD n 0 ∧
      st' = st ∧ evs = []) ∨
    (isComputedN g n = true ∧ cacheD st' n = some v ∧
      ((cacheD st n = some v ∧ st' = st ∧ evs = []) ∨
       (cacheD st n = none ∧ Ev.combine n ∈ evs))) := by
  cases fuel with
  | zero => simp [computeNode] at h
  | succ f =>
    simp only [computeNode] at h
    split at h
    · simp at h
    · rename_i heqk
      simp only [Option.some.injEq, Prod.mk.injEq] at h
      obtain ⟨rfl, rfl, rfl⟩ := h
      exact Or.inl ⟨heqk, rfl, rfl, rfl⟩
    · rename_i deps comb heqk
      have hcomp : isComputedN g n = true := isComputedN_iff.mpr ⟨deps, comb, heqk⟩
      split at h
      · rename_i v0 heqc
        simp only [Option.some.injEq, Prod.mk.injEq] at h
        obtain ⟨rfl, rfl, rfl⟩ := h
        exact Or.inr ⟨hcomp, heqc, Or.inl ⟨heqc, rfl, rfl⟩⟩
      · rename_i heqc
        split at h
        · simp at h
        · rename_i vs st1 e1 heq1
          simp only [Option.some.injEq, Prod.mk.injEq] at h
          obtain ⟨rfl, rfl, rfl⟩ := h
          have O1 := evalDeps_comp g f (compute_comp g f) deps st vs st1 e1 hal heq1
          have hn1 : n < st1.cache.length := by
            rw [O1.clen, hal]
            exact lt_of_getElem?_some heqk
          refine Or.inr ⟨hcomp, getD_set_self _ _ _ _ hn1, Or.inr ⟨heqc, ?_⟩⟩
          exact List.mem_append.mpr (Or.inr (List.mem_singleton.mpr rfl))

/-- `compute()` is idempotent: immediately re-running it returns the same
value with no state change and no events (in particular the wrapped step
is not re-invoked). -/
theorem compute_idem (g : Graph) (fuel : Nat) (st : St) (n : NodeId)
    (v : Value) (st' : St) (evs : List Ev)
    (hal : st.cache.length = g.nodes.length)
    (h : computeNode g fuel st n = some (v, st', evs)) :
    ∀ fuel', computeNode g (fuel' + 1) st' n = some (v, st', []) := by
  intro fuel'
  rcases compute_shape g fuel st n v st' evs hal h with
    ⟨heqk, hv, hst, _⟩ | ⟨hcomp, hslot, _⟩
  · rw [hst, compute_input g fuel' st n heqk, hv]
  · exact compute_hit g fuel' st' n v hcomp hslot

theorem rank_evs_deps (g : Graph) (rank : NodeId → Nat) (fuel : Nat)
    (ih : RankEvs g rank fuel) :
    ∀ deps st vs st' evs,
      evalDeps (computeNode g fuel) st deps = some (vs, st', evs) →
      ∀ k, Ev.combine k ∈ evs →
        ∃ m, Operand.node m ∈ deps ∧ rank k ≤ rank m := by
  intro deps
  induction deps with
  | nil =>
    intro st vs st' evs hp k hk
    simp only [evalDeps, Option.some.injEq, Prod.mk.injEq] at hp
    obtain ⟨_, _, rfl⟩ := hp
    simp at hk
  | cons d rest ihd =>
    intro st vs st' evs hp k hk
    simp only [evalDeps] at hp
    split at hp
    · simp at hp
    · rename_i v1 st1 e1 heq1
      split at hp
      · simp at hp
      · rename_i vs2 st2 e2 heq2
        simp only [Option.some.injEq, Prod.mk.injEq] at hp
        obtain ⟨_, rfl, rfl⟩ := hp
        rcases List.mem_append.mp hk with hk | hk
        · cases d with
          | const c =>
            simp only [evalOp, Option.some.injEq, Prod.mk.injEq] at heq1
            obtain ⟨_, _, rfl⟩ := heq1
            simp at hk
          | node m =>
            exact ⟨m, List.mem_cons_self .., ih st m v1 st1 e1 heq1 k hk⟩
        · obtain ⟨m, hm, hr⟩ := ihd st1 vs2 st2 e2 heq2 k hk
          exact ⟨m, List.mem_cons_of_mem _ hm, hr⟩

theorem rank_evs (g : Graph) (rank : NodeId → Nat) (hr : RankOk g rank) :
    ∀ fuel, RankEvs g rank fuel := by
  intro fuel
  induction fuel with
  | zero =>
    intro st n v st' evs h
    simp [computeNode] at h
  | succ f ihf =>
    intro st n v st' evs h
    simp only [computeNode] at h
    split at h
    · simp at h
    · simp only [Option.some.injEq, Prod.mk.injEq] at h
      obtain ⟨_, _, rfl⟩ := h
      intro k hk
      simp at hk
    · rename_i deps comb heqk
      split at h
      · rename_i v0 heqc
        simp only [Option.some.injEq, Prod.mk.injEq] at h
        obtain ⟨_, _, rfl⟩ := h
        intro k hk
        simp at hk
      · rename_i heqc
        split at h
        · simp at h
        · rename_i vs st1 e1 heq1
          simp only [Option.some.injEq, Prod.mk.injEq] at h
          obtain ⟨_, _, rfl⟩ := h
          intro k hk
          rcases List.mem_append.mp hk with hk | hk
          · obtain ⟨m, hm, hle⟩ := rank_evs_deps g rank f ihf deps st vs st1 e1 heq1 k hk
            have := (hr n deps comb heqk m hm).2
            omega
          · have hkn : k = n := by simpa using hk
            exact hkn ▸ Nat.le_refl _

theorem evalDeps_total (f : St → NodeId → Option (Value × St × List Ev)) :
    ∀ deps, (∀ m, Operand.node m ∈ deps → ∀ st, (f st m).isSome) →
      ∀ st, (evalDeps f st deps).isSome := by
  intro deps
  induction deps with
  | nil =>
    intro h st
    simp [evalDeps]
  | cons d rest ih =>
    intro h st
    have hop : (evalOp f st d).isSome := by
      cases d with
      | const c => simp [evalOp]
      | node m => exact h m (List.mem_cons_self ..) st
    obtain ⟨⟨v1, st1, e1⟩, hp1⟩ := Option.isSome_iff_exists.mp hop
    have h2 := ih (fun m hm => h m (List.mem_cons_of_mem _ hm)) st1
    obtain ⟨⟨vs2, st2, e2⟩, hp2⟩ := Option.isSome_iff_exists.mp h2
    simp [evalDeps, hp1, hp2]

/-- Under acyclicity (a rank certificate), `compute()` terminates: any
fuel exceeding the node's rank suffices, on every state. -/
theorem compute_total (g : Graph) (rank : NodeId → Nat) (hr : RankOk g rank) :
    ∀ fuel n st, n < g.nodes.length → rank n < fuel →
      (computeNode g fuel st n).isSome := by
  intro fuel
  induction fuel with
  | zero =>
    intro n st hn h
    omega
  | succ f ih =>
    intro n st hn hrank
    cases heqk : g.nodes[n]? with
    | none =>
      have := List.getElem?_eq_none_iff.mp heqk
      omega
    | some kind =>
      cases kind with
      | input => simp [computeNode, heqk]
      | computed deps comb =>
        cases heqc : st.cache.getD n none with
        | some v =>
          simp only [computeNode, heqk, heqc]
          rfl
        | none =>
          have hdeps : ∀ m, Operand.node m ∈ deps →
              ∀ st2, (computeNode g f st2 m).isSome := by
            intro m hm st2
            obtain ⟨hml, hmr⟩ := hr n deps comb heqk m hm
            exact ih m st2 hml (by omega)
          obtain ⟨⟨vs, st1, e1⟩, hp⟩ :=
            Option.isSome_iff_exists.mp (evalDeps_total (computeNode g f) deps hdeps st)
          simp only [computeNode, heqk, heqc, hp]
          rfl

theorem publishAll_total (f : St → NodeId → Option (St × List Ev)) :
    ∀ l, (∀ s, s ∈ l → ∀ st, (f st s).isSome) →
      ∀ st, (publishAll f st l).isSome := by
  intro l
  induction l with
  | nil =>
    intro h st
    simp [publishAll]
  | cons s rest ih =>
    intro h st
    obtain ⟨⟨st1, e1⟩, hp1⟩ :=
      Option.isSome_iff_exists.mp (h s (List.mem_cons_self ..) st)
    have h2 := ih (fun t ht => h t (List.mem_cons_of_mem _ ht)) st1
    obtain ⟨⟨st2, e2⟩, hp2⟩ := Option.isSome_iff_exists.mp h2
    simp [publishAll, hp1, hp2]

/-- The invalidation cascade terminates whenever subscription edges carry
a rank certificate; fuel `N + 1 - rank n` suffices, on every state. -/
theorem invalidate_total (g : Graph) (rank : NodeId → Nat) (N : Nat)
    (hs : SubsOk g rank) (hN : ∀ k, k < g.nodes.length → rank k < N) :
    ∀ fuel n st, isComputedN g n = true → N + 1 ≤ fuel + rank n →
      (invalidateCache g fuel st n).isSome := by
  intro fuel
  induction fuel with
  | zero =>
    intro n st hc hf
    obtain ⟨deps, comb, heqk⟩ := isComputedN_iff.mp hc
    have := hN n (lt_of_getElem?_some heqk)
    omega
  | succ f ih =>
    intro n st hc hf
    obtain ⟨deps, comb, heqk⟩ := isComputedN_iff.mp hc
    cases heqc : st.cache.getD n none with
    | none =>
      simp only [invalidateCache, heqk, heqc]
      rfl
    | some v =>
      have hn : n < g.nodes.length := lt_of_getElem?_some heqk
      have hsubs : ∀ s, s ∈ g.subs.getD n [] →
          ∀ st2, (invalidateCache g f st2 s).isSome := by
        intro s hsub st2
        obtain ⟨hcs, hrs⟩ := hs n s hsub
        exact ih s st2 hcs (by omega)
      obtain ⟨⟨st2, e2⟩, hp⟩ := Option.isSome_iff_exists.mp
        (publishAll_total _ _ hsubs (St.mk st.vals (st.cache.set n none)))
      simp only [invalidateCache, heqk, heqc, hp]
      rfl

/-- `set` terminates under the same certificate. -/
theorem setInput_total (g : Graph) (rank : NodeId → Nat) (N : Nat)
    (hs : SubsOk g rank) (hN : ∀ k, k < g.nodes.length → rank k < N)
    (fuel : Nat) (n : NodeId) (v : Value) (st : St)
    (hin : g.nodes[n]? = some NodeKind.input)
    (hf : N + 1 ≤ fuel + rank n) : (setInput g fuel st n v).isSome := by
  have hsubs : ∀ s, s ∈ g.subs.getD n [] →
      ∀ st2, (invalidateCache g fuel st2 s).isSome := by
    intro s hsub st2
    obtain ⟨hcs, hrs⟩ := hs n s hsub
    exact invalidate_total g rank N hs hN fuel s st2 hcs (by omega)
  obtain ⟨⟨st2, e2⟩, hp⟩ := Option.isSome_iff_exists.mp
    (publishAll_total _ _ hsubs (St.mk (st.vals.set n v) st.cache))
  simp only [setInput, hin, hp]
  rfl

theorem compute_cyc : ∀ fuel, computeNode gCyc fuel stCyc 0 = none := by
  intro fuel
  induction fuel with
  | zero => rfl
  | succ f ih =>
    have h1 : gCyc.nodes[0]? = some (NodeKind.computed [Operand.node 0] idComb) := rfl
    have h2 : stCyc.cache.getD 0 none = none := rfl
    simp only [computeNode, h1, h2, evalDeps, evalOp, ih]

/- Facts about `defineNode`'s subscription loop. -/

theorem getD_append_left {α : Type} (l1 l2 : List α) (d : α) {m : Nat}
    (h : m < l1.length) : (l1 ++ l2).getD m d = l1.getD m d := by
  rw [List.getD_eq_getElem?_getD, List.getElem?_append, if_pos h,
    ← List.getD_eq_getElem?_getD]

theorem getD_append_length {α : Type} (l1 : List α) (x d : α) :
    (l1 ++ [x]).getD l1.length d = x := by
  rw [List.getD_eq_getElem?_getD, List.getElem?_concat_length]
  rfl

theorem subscribeDeps_length (newId : NodeId) :
    ∀ deps subs, (subscribeDeps subs newId deps).length = subs.length := by
  intro deps
  induction deps with
  | nil =>
    intro subs
    rfl
  | cons d rest ih =>
    intro subs
    cases d with
    | const c => exact ih subs
    | node m => exact (ih _).trans (List.length_set ..)

/-- Effect of the subscription loop on each publisher: dependency `m`
gains one trailing `newId` entry per occurrence of `m` among the
dependency operands (hence exactly one per dependency edge), and every
other subscriber list is untouched. -/
theorem subscribeDeps_getD (newId : NodeId) :
    ∀ deps subs m, (∀ j, j ∈ depIds deps → j < subs.length) →
      (subscribeDeps subs newId deps).getD m [] =
        subs.getD m [] ++ List.replicate ((depIds deps).count m) newId := by
  intro deps
  induction deps with
  | nil =>
    intro subs m h
    simp [subscribeDeps, depIds]
  | cons d rest ih =>
    intro subs m h
    cases d with
    | const c =>
      have hd : depIds (Operand.const c :: rest) = depIds rest := by
        simp [depIds, List.filterMap_cons]
      rw [hd] at h
      simp only [subscribeDeps]
      rw [hd]
      exact ih subs m h
    | node jj =>
      have hd : depIds (Operand.node jj :: rest) = jj :: depIds rest := by
        simp [depIds, List.filterMap_cons]
      have hjlen : jj < subs.length := by
        refine h jj ?_
        rw [hd]
        exact List.mem_cons_self ..
      simp only [subscribeDeps]
      have hrest : ∀ j, j ∈ depIds rest →
          j < (subs.set jj (subs.getD jj [] ++ [newId])).length := by
        intro j hj
        rw [List.length_set]
        refine h j ?_
        rw [hd]
        exact List.mem_cons_of_mem _ hj
      rw [ih (subs.set jj (subs.getD jj [] ++ [newId])) m hrest]
      rw [hd, List.count_cons]
      by_cases hm : jj = m
      · subst hm
        rw [getD_set_self _ _ _ _ hjlen]
        simp only [beq_self_eq_true, if_pos]
        rw [List.append_assoc, List.singleton_append, ← List.replicate_succ]
      · rw [getD_set_ne _ _ _ hm]
        rw [beq_eq_false_iff_ne.mpr hm]
        simp

theorem gLine_edges : ∀ a b, subEdge gLine a b → a = 0 ∧ b = 1 := by
  intro a b h
  unfold subEdge at h
  rcases a with _ | _ | a
  · exact ⟨rfl, by simpa [gLine] using h⟩
  · simp [gLine] at h
  · rw [List.getD_eq_default _ _ (show gLine.subs.length ≤ a + 1 + 1 by
      show 2 ≤ a + 1 + 1
      omega)] at h
    simp at h

theorem gLine_reach : ∀ d, Relation.TransGen (subEdge gLine) 0 d → d = 1 := by
  intro d h
  induction h with
  | single hedge => exact (gLine_edges _ _ hedge).2
  | tail hprev hedge ih =>
    obtain ⟨hb, _⟩ := gLine_edges _ _ hedge
    rw [ih] at hb
    cases hb

theorem gLine_lt : ∀ a b, Relation.TransGen (subEdge gLine) a b → a < b := by
  intro a b h
  induction h with
  | single hedge =>
    obtain ⟨h0, h1⟩ := gLine_edges _ _ hedge
    subst h0
    subst h1
    decide
  | tail hprev hedge ih =>
    obtain ⟨h0, h1⟩ := gLine_edges _ _ hedge
    exact absurd (h0 ▸ ih) (Nat.not_lt_zero a)

theorem gLine_acyc : ∀ n, ¬ Relation.TransGen (subEdge gLine) n n :=
  fun n h => absurd (gLine_lt n n h) (lt_irrefl n)

theorem gLine_rankok : RankOk gLine (fun k => k) := by
  intro n deps comb heqk m hm
  rcases n with _ | _ | n
  · simp [gLine] at heqk
  · have hd : [Operand.node 0] = deps ∧ idComb = comb := by
      simpa [gLine, NodeKind.computed.injEq] using heqk
    rw [← hd.1] at hm
    have hm0 : m = 0 := by simpa using hm
    subst hm0
    exact ⟨by decide, by decide⟩
  · rw [List.getElem?_eq_none (show gLine.nodes.length ≤ n + 1 + 1 by
      show 2 ≤ n + 1 + 1
      omega)] at heqk
    cases heqk

theorem gLine_subsok : SubsOk gLine (fun k => k) := by
  intro a s hs
  obtain ⟨ha, hb⟩ := gLine_edges a s hs
  subst ha
  subst hb
  exact ⟨rfl, by decide⟩

theorem gDia_edges : ∀ a b, subEdge gDia a b →
    (a = 0 ∧ b = 1) ∨ (a = 0 ∧ b = 2) ∨ (a = 1 ∧ b = 3) ∨ (a = 2 ∧ b = 3) := by
  intro a b h
  unfold subEdge at h
  rcases a with _ | _ | _ | _ | a
  · have hb : b = 1 ∨ b = 2 := by simpa [gDia] using h
    rcases hb with hb | hb
    · exact Or.inl ⟨rfl, hb⟩
    · exact Or.inr (Or.inl ⟨rfl, hb⟩)
  · have hb : b = 3 := by simpa [gDia] using h
    exact Or.inr (Or.inr (Or.inl ⟨rfl, hb⟩))
  · have hb : b = 3 := by simpa [gDia] using h
    exact Or.inr (Or.inr (Or.inr ⟨rfl, hb⟩))
  · simp [gDia] at h
  · rw [List.getD_eq_default _ _ (show gDia.subs.length ≤ a + 1 + 1 + 1 + 1 by
      show 4 ≤ a + 1 + 1 + 1 + 1
      omega)] at h
    simp at h

theorem gDia_lt : ∀ a b, Relation.TransGen (subEdge gDia) a b → a < b := by
  intro a b h
  induction h with
  | single hedge =>
    rcases gDia_edges _ _ hedge with ⟨h0, h1⟩ | ⟨h0, h1⟩ | ⟨h0, h1⟩ | ⟨h0, h1⟩ <;>
      subst h0 <;> subst h1 <;> decide
  | tail hprev hedge ih =>
    rcases gDia_edges _ _ hedge with ⟨h0, h1⟩ | ⟨h0, h1⟩ | ⟨h0, h1⟩ | ⟨h0, h1⟩
    · exact absurd (h0 ▸ ih) (Nat.not_lt_zero a)
    · exact absurd (h0 ▸ ih) (Nat.not_lt_zero a)
    · exact h1 ▸ Nat.lt_trans (h0 ▸ ih) (by decide)
    · exact h1 ▸ Nat.lt_trans (h0 ▸ ih) (by decide)

theorem gDia_acyc : ∀ n, ¬ Relation.TransGen (subEdge gDia) n n :=
  fun n h => absurd (gDia_lt n n h) (lt_irrefl n)

theorem gDia_reach : ∀ d, Relation.TransGen (subEdge gDia) 0 d →
    d = 1 ∨ d = 2 ∨ d = 3 := by
  intro d h
  induction h with
  | single hedge =>
    rcases gDia_edges _ _ hedge with ⟨h0, h1⟩ | ⟨h0, h1⟩ | ⟨h0, h1⟩ | ⟨h0, h1⟩
    · exact Or.inl h1
    · exact Or.inr (Or.inl h1)
    · exact absurd h0 (by decide)
    · exact absurd h0 (by decide)
  | tail hprev hedge ih =>
    rcases gDia_edges _ _ hedge with ⟨h0, h1⟩ | ⟨h0, h1⟩ | ⟨h0, h1⟩ | ⟨h0, h1⟩
    · subst h0
      rcases ih with hc | hc | hc <;> exact absurd hc (by decide)
    · subst h0
      rcases ih with hc | hc | hc <;> exact absurd hc (by decide)
    · exact Or.inr (Or.inr h1)
    · exact Or.inr (Or.inr h1)

/-- Claim C1, counterexample to the claim as stated.  On `gLine` — input 0
with the computed dependent 1 — in the fresh state `stLine` where no
`compute()` has ever run, node 1 is transitively reachable from input 0,
yet `set(7)` broadcasts zero invalidations on it: node 1's slot is
already empty, so its `invalidate_cache` is a no-op and its own publisher
never fires.  The full event log is just the input's own publish, so
"exactly one invalidation broadcast on every member of the
transitive-dependent set" fails at this input. -/
theorem c1_claim_counterexample :
    Relation.TransGen (subEdge gLine) 0 1 ∧
    setInput gLine 3 stLine 0 7 =
      some (St.mk [7, 0] [none, none], [Ev.publish 0]) ∧
    [Ev.publish 0].count (Ev.publish 1) = 0 :=
  ⟨Relation.TransGen.single (by decide), rfl, rfl⟩

/-- Claim C1 (amended): in an acyclic graph, if every transitive
dependent of input `X` has a full cache slot before the call (as after a
completed `compute()` of all dependents), then after `X.set(v)` returns:
every transitive dependent's slot is empty; `X`'s own publisher broadcast
exactly once; every transitive dependent broadcast exactly once, even
when dependency paths form a diamond; and every node outside the
dependent set broadcast zero times. -/
theorem c1_set_invalidates_dependents (g : Graph) (fuel : Nat) (st : St)
    (X : NodeId) (v : Value) (st' : St) (evs : List Ev)
    (hacyc : ∀ n, ¬ Relation.TransGen (subEdge g) n n)
    (hfull : ∀ d, Relation.TransGen (subEdge g) X d →
      st.cache.getD d none ≠ none)
    (h : setInput g fuel st X v = some (st', evs)) :
    (∀ d, Relation.TransGen (subEdge g) X d →
      st'.cache.getD d none = none) ∧
    evs.count (Ev.publish X) = 1 ∧
    (∀ d, Relation.TransGen (subEdge g) X d →
      evs.count (Ev.publish d) = 1) ∧
    (∀ d, d ≠ X → ¬ Relation.TransGen (subEdge g) X d →
      evs.count (Ev.publish d) = 0) := by
  obtain ⟨heqk, e, rfl, O, F, PS⟩ := setInput_spec g fuel st X v st' evs h
  have hXnot : Ev.publish X ∉ e := by
    intro hmem
    have hc := (O.pub_spec X hmem).2.2
    simp [isComputedN, heqk] at hc
  have h1 : ∀ d, Relation.TransGen (subEdge g) X d → cacheD st' d = none := by
    intro d hd
    induction hd with
    | single hedge => exact F _ hedge
    | tail hprev hedge ih =>
      rename_i b c
      have hfb : cacheD (St.mk (st.vals.set X v) st.cache) b ≠ none :=
        hfull b hprev
      have hch : cacheD st' b ≠ cacheD (St.mk (st.vals.set X v) st.cache) b := by
        rw [ih]
        exact fun hc => hfb hc.symm
      exact PS b (O.changed_pub b hch) c hedge
  refine ⟨h1, ?_, ?_, ?_⟩
  · rw [List.count_cons, List.count_eq_zero.mpr hXnot]
    simp
  · intro d hd
    have hdX : d ≠ X := fun hc => hacyc X (hc ▸ hd)
    have hch : cacheD st' d ≠ cacheD (St.mk (st.vals.set X v) st.cache) d := by
      rw [h1 d hd]
      exact fun hc => (hfull d hd) hc.symm
    have hmem := O.changed_pub d hch
    have hne : (Ev.publish X == Ev.publish d) = false := by
      refine beq_eq_false_iff_ne.mpr ?_
      intro hc
      refine hdX ?_
      injection hc with hc
      exact hc.symm
    rw [List.count_cons, hne]
    have hle := O.pub_once d
    have hpos := List.count_pos_iff.mpr hmem
    simp only [Bool.false_eq_true, if_false, Nat.add_zero]
    omega
  · intro d hdX hnr
    have hnotmem : Ev.publish d ∉ e := by
      intro hmem
      exact hnr (O.pub_reach d hmem)
    have hne : (Ev.publish X == Ev.publish d) = false := by
      refine beq_eq_false_iff_ne.mpr ?_
      intro hc
      refine hdX ?_
      injection hc with hc
      exact hc.symm
    rw [List.count_cons, List.count_eq_zero.mpr hnotmem, hne]
    simp

/-- Claim C1 witness on the diamond `gDia` (input 0, dependents 1, 2, 3
with 3 shared): with all dependents' slots full, `set` empties every slot
and each of input 0 and dependents 1, 2, 3 broadcasts exactly once
(3 only once despite two converging paths); an unrelated id broadcasts
zero times. -/
theorem c1_set_invalidates_dependents_witness :
    (St.mk ([9, 0, 0, 0] : List Value)
      [none, none, none, none]).cache.getD 3 none = none ∧
    [Ev.publish 0, Ev.publish 1, Ev.publish 3,
      Ev.publish 2].count (Ev.publish 0) = 1 ∧
    [Ev.publish 0, Ev.publish 1, Ev.publish 3,
      Ev.publish 2].count (Ev.publish 1) = 1 ∧
    [Ev.publish 0, Ev.publish 1, Ev.publish 3,
      Ev.publish 2].count (Ev.publish 3) = 1 ∧
    [Ev.publish 0, Ev.publish 1, Ev.publish 3,
      Ev.publish 2].count (Ev.publish 9) = 0 := by
  have hset : setInput gDia 5 stDia 0 9 =
      some (St.mk [9, 0, 0, 0] [none, none, none, none],
        [Ev.publish 0, Ev.publish 1, Ev.publish 3, Ev.publish 2]) := rfl
  have hfull : ∀ d, Relation.TransGen (subEdge gDia) 0 d →
      stDia.cache.getD d none ≠ none := by
    intro d hd
    rcases gDia_reach d hd with hc | hc | hc <;> subst hc <;> decide
  have h := c1_set_invalidates_dependents gDia 5 stDia 0 9 _ _
    gDia_acyc hfull hset
  have e01 : subEdge gDia 0 1 := by decide
  have e02 : subEdge gDia 0 2 := by decide
  have e13 : subEdge gDia 1 3 := by decide
  have t3 : Relation.TransGen (subEdge gDia) 0 3 :=
    Relation.TransGen.tail (Relation.TransGen.single e01) e13
  refine ⟨h.1 3 t3, h.2.1, h.2.2.1 1 (Relation.TransGen.single e01),
    h.2.2.1 3 t3, h.2.2.2 9 (by decide) ?_⟩
  intro hc
  rcases gDia_reach 9 hc with hc | hc | hc <;> exact absurd hc (by decide)

/-- Claim C2: the cache wrapper's `compute()`.  Hit: with a full slot it
returns the stored value, changes nothing and does not invoke the step.
Miss: with an empty slot it runs the step (dependencies in declared
order, then the combiner), stores and returns the result.  In any
acyclic graph the slot-filling call invokes the node's combiner exactly
once, and immediately re-running `compute()` returns the same value with
no further combiner invocation — so repeated calls with no invalidation
in between invoke the combiner at most once in total. -/
theorem c2_cache_wrapper_compute (g : Graph) :
    (∀ fuel st n v, isComputedN g n = true →
      st.cache.getD n none = some v →
      computeNode g (fuel + 1) st n = some (v, st, [])) ∧
    (∀ fuel st n deps comb vs st1 e1,
      g.nodes[n]? = some (NodeKind.computed deps comb) →
      st.cache.getD n none = none →
      evalDeps (computeNode g fuel) st deps = some (vs, st1, e1) →
      computeNode g (fuel + 1) st n =
        some (comb vs, St.mk st1.vals (st1.cache.set n (some (comb vs))),
          e1 ++ [Ev.combine n])) ∧
    (∀ rank, RankOk g rank → ∀ fuel st n v st' evs,
      computeNode g fuel st n = some (v, st', evs) →
      st.cache.getD n none = none → isComputedN g n = true →
      evs.count (Ev.combine n) = 1) ∧
    (∀ fuel st n v st' evs, st.cache.length = g.nodes.length →
      computeNode g fuel st n = some (v, st', evs) →
      ∀ fuel', computeNode g (fuel' + 1) st' n = some (v, st', [])) := by
  refine ⟨?_, ?_, ?_, ?_⟩
  · intro fuel st n v hc heqc
    exact compute_hit g fuel st n v hc heqc
  · intro fuel st n deps comb vs st1 e1 heqk heqc heqd
    exact compute_miss g fuel st n deps comb vs st1 e1 heqk heqc heqd
  · intro rank hr fuel st n v st' evs h heqc hc
    obtain ⟨deps, comb, heqk⟩ := isComputedN_iff.mp hc
    cases fuel with
    | zero => simp [computeNode] at h
    | succ f =>
      simp only [computeNode, heqk, heqc] at h
      split at h
      · simp at h
      · rename_i vs st1 e1 heq1
        simp only [Option.some.injEq, Prod.mk.injEq] at h
        obtain ⟨_, _, rfl⟩ := h
        rw [List.count_append]
        have hnot : Ev.combine n ∉ e1 := by
          intro hmem
          obtain ⟨m, hm, hle⟩ :=
            rank_evs_deps g rank f (rank_evs g rank hr f) deps st vs st1 e1
              heq1 n hmem
          have := (hr n deps comb heqk m hm).2
          omega
        rw [List.count_eq_zero.mpr hnot]
        simp
  · intro fuel st n v st' evs hal h
    exact compute_idem g fuel st n v st' evs hal h

/-- Claim C2 witness on `gLine`: computing node 1 with an empty slot runs
its step once (the single `Ev.combine 1`), stores and returns the
dependency's value 4. -/
theorem c2_cache_wrapper_compute_witness :
    computeNode gLine 2 stLine 1 =
      some (4, St.mk [4, 0] [none, some 4], [Ev.combine 1]) := by
  have h := (c2_cache_wrapper_compute gLine).2.1 1 stLine 1 [Operand.node 0]
    idComb [4] stLine [] rfl rfl rfl
  exact h.trans (by decide)

/-- Claim C3: `invalidate_cache`.  With an already-empty slot it is an
exact no-op: state unchanged, nothing published.  With a full slot it
clears the slot and publishes on the node's own publisher exactly once
(the head of the log, never repeated in the cascade) — so each node
broadcasts at most once per clean-to-dirty transition and re-invalidating
a dirty node never re-broadcasts. -/
theorem c3_invalidate_once (g : Graph) :
    (∀ fuel st n, isComputedN g n = true → st.cache.getD n none = none →
      invalidateCache g (fuel + 1) st n = some (st, [])) ∧
    (∀ fuel st n st' evs, invalidateCache g fuel st n = some (st', evs) →
      st.cache.getD n none ≠ none →
      ∃ rest, evs = Ev.publish n :: rest ∧ Ev.publish n ∉ rest ∧
        st'.cache.getD n none = none) := by
  constructor
  · intro fuel st n hc heqc
    obtain ⟨deps, comb, heqk⟩ := isComputedN_iff.mp hc
    simp only [invalidateCache, heqk, heqc]
  · intro fuel st n st' evs h hne
    cases fuel with
    | zero => simp [invalidateCache] at h
    | succ f =>
      simp only [invalidateCache] at h
      split at h
      · rename_i deps comb heqk
        split at h
        · rename_i heqc
          exact absurd heqc hne
        · rename_i v heqc
          split at h
          · simp at h
          · rename_i st2 e2 heq2
            simp only [Option.some.injEq, Prod.mk.injEq] at h
            obtain ⟨rfl, rfl⟩ := h
            have hn : n < st.cache.length :=
              lt_length_of_getD_ne_none (by rw [heqc]; simp)
            have hst1n :
                cacheD (St.mk st.vals (st.cache.set n none)) n = none :=
              getD_set_self _ _ _ _ hn
            obtain ⟨O, F, PS⟩ :=
              publishAll_inv g f (invalidate_inv g f) _ _ _ _ heq2
            refine ⟨e2, rfl, ?_, O.mono n hst1n⟩
            intro hmem
            exact (O.pub_spec n hmem).1 hst1n
      · simp at h

/-- Claim C3 witness on `gLine`: re-invalidating node 1 while its slot is
already empty is an exact no-op — same state back, empty event log. -/
theorem c3_invalidate_once_witness :
    invalidateCache gLine 5 (St.mk [4, 0] [none, none]) 1 =
      some (St.mk [4, 0] [none, none], []) :=
  (c3_invalidate_once gLine).1 4 (St.mk [4, 0] [none, none]) 1 rfl rfl

/-- Claim C4: `set(v)` on an input unconditionally stores `v` — there is
no value-equality short-circuit, the statement quantifies over every `v`
including the previously stored one — and publishes on the input's own
publisher exactly once (the head of the log); afterwards `compute()` on
the input returns `v`. -/
theorem c4_set_unconditional (g : Graph) (fuel : Nat) (st : St)
    (X : NodeId) (v : Value) (st' : St) (evs : List Ev)
    (hal : st.vals.length = g.nodes.length)
    (h : setInput g fuel st X v = some (st', evs)) :
    st'.vals.getD X 0 = v ∧
    (∃ rest, evs = Ev.publish X :: rest) ∧
    evs.count (Ev.publish X) = 1 ∧
    ∀ fuel', computeNode g (fuel' + 1) st' X = some (v, st', []) := by
  obtain ⟨heqk, e, rfl, O, F, PS⟩ := setInput_spec g fuel st X v st' evs h
  have hx : X < st.vals.length := by
    rw [hal]
    exact lt_of_getElem?_some heqk
  have hvals : st'.vals = st.vals.set X v := O.vals_eq
  have hvX : st'.vals.getD X 0 = v := by
    rw [hvals]
    exact getD_set_self _ _ _ _ hx
  have hXnot : Ev.publish X ∉ e := by
    intro hmem
    have hc := (O.pub_spec X hmem).2.2
    simp [isComputedN, heqk] at hc
  refine ⟨hvX, ⟨e, rfl⟩, ?_, ?_⟩
  · rw [List.count_cons, List.count_eq_zero.mpr hXnot]
    simp
  · intro fuel'
    rw [compute_input g fuel' st' X heqk, hvX]

/-- Claim C4 witness on `gLine`, setting the input to the value it
already holds (4): the broadcast still happens — one publish on the
input — and `compute()` returns 4. -/
theorem c4_set_unconditional_witness :
    (St.mk ([4, 0] : List Value)
      ([none, none] : List (Option Value))).vals.getD 0 0 = 4 ∧
    [Ev.publish 0, Ev.publish 1].count (Ev.publish 0) = 1 ∧
    computeNode gLine 1 (St.mk [4, 0] [none, none]) 0 =
      some (4, St.mk [4, 0] [none, none], []) := by
  have hset : setInput gLine 3 stLineFull 0 4 =
      some (St.mk [4, 0] [none, none], [Ev.publish 0, Ev.publish 1]) := rfl
  have h := c4_set_unconditional gLine 3 stLineFull 0 4 _ _ rfl hset
  exact ⟨h.1, h.2.2.1, h.2.2.2 0⟩

/-- Claim C5: one `publish_invalidate` pass (`Vec::retain` over weak
subscriber entries).  The invalidations fired are exactly the live
targets in entry order — one per live entry, duplicate entries firing
independently (the count of target `t` equals the number of live entries
for `t`) — the retained list is exactly the live entries, and the pass on
an empty list is a no-op. -/
theorem c5_publish_pass :
    (∀ entries : List (Option Nat),
      (publishPass entries).2 = entries.filterMap id ∧
      (publishPass entries).1 = entries.filter (fun w => w.isSome) ∧
      ∀ t, (publishPass entries).2.count t = entries.count (some t)) ∧
    publishPass [] = ([], []) := by
  constructor
  · intro entries
    induction entries with
    | nil => exact ⟨rfl, rfl, fun t => rfl⟩
    | cons w rest ih =>
      obtain ⟨ih1, ih2, ih3⟩ := ih
      cases w with
      | none =>
        refine ⟨?_, ?_, ?_⟩
        · simp [publishPass, List.filterMap_cons, ih1]
        · simp [publishPass, ih2]
        · intro t
          show (publishPass rest).2.count t = (none :: rest).count (some t)
          rw [ih3 t, List.count_cons]
          simp
      | some t0 =>
        refine ⟨?_, ?_, ?_⟩
        · simp [publishPass, List.filterMap_cons, ih1]
        · simp [publishPass, ih2]
        · intro t
          show (t0 :: (publishPass rest).2).count t =
            (some t0 :: rest).count (some t)
          rw [List.count_cons, List.count_cons, ih3 t]
          by_cases ht : t0 = t
          · subst ht
            simp
          · rw [beq_eq_false_iff_ne.mpr ht,
              beq_eq_false_iff_ne.mpr (by simpa using ht)]
  · rfl

/-- Claim C6: a constructor generated by `define_nodes!`.  The new node
gets the next id; it is a computed node holding exactly the declared
dependency handles and combiner; it starts with an empty cache slot and a
fresh, empty publisher; construction subscribes it to each dependency's
publisher exactly once per dependency edge (dependency `m` gains one
trailing entry per occurrence of `m` among the operands, all other
subscriber lists unchanged); and its compute step evaluates the
dependencies in declared left-to-right order and applies the combiner to
the resulting values. -/
theorem c6_define_node (g : Graph) (st : St) (deps : List Operand)
    (comb : List Value → Value)
    (hsl : g.subs.length = g.nodes.length)
    (hcl : st.cache.length = g.nodes.length)
    (hdeps : ∀ j, j ∈ depIds deps → j < g.nodes.length) :
    (defineNode g st deps comb).2.2 = g.nodes.length ∧
    (defineNode g st deps comb).1.nodes[g.nodes.length]? =
      some (NodeKind.computed deps comb) ∧
    (defineNode g st deps comb).2.1.cache.getD g.nodes.length none = none ∧
    (defineNode g st deps comb).1.subs.getD g.nodes.length [] = [] ∧
    (∀ m, m < g.nodes.length →
      (defineNode g st deps comb).1.subs.getD m [] =
        g.subs.getD m [] ++
          List.replicate ((depIds deps).count m) g.nodes.length) ∧
    (∀ fuel vs st1 e1,
      evalDeps (computeNode (defineNode g st deps comb).1 fuel)
          (defineNode g st deps comb).2.1 deps = some (vs, st1, e1) →
      computeNode (defineNode g st deps comb).1 (fuel + 1)
          (defineNode g st deps comb).2.1 g.nodes.length =
        some (comb vs,
          St.mk st1.vals (st1.cache.set g.nodes.length (some (comb vs))),
          e1 ++ [Ev.combine g.nodes.length])) := by
  have hsub0 : ∀ j, j ∈ depIds deps → j < (g.subs ++ [[]]).length := by
    intro j hj
    have hjl := hdeps j hj
    rw [← hsl] at hjl
    rw [List.length_append, List.length_singleton]
    exact Nat.lt_succ_of_lt hjl
  have hnodes : (defineNode g st deps comb).1.nodes[g.nodes.length]? =
      some (NodeKind.computed deps comb) := by
    show (g.nodes ++ [NodeKind.computed deps comb])[g.nodes.length]? = _
    exact List.getElem?_concat_length ..
  have hcache : (defineNode g st deps comb).2.1.cache.getD
      g.nodes.length none = none := by
    show (st.cache ++ [none]).getD g.nodes.length none = none
    rw [← hcl]
    exact getD_append_length ..
  refine ⟨rfl, hnodes, hcache, ?_, ?_, ?_⟩
  · show (subscribeDeps (g.subs ++ [[]]) g.nodes.length deps).getD
      g.nodes.length [] = []
    rw [subscribeDeps_getD g.nodes.length deps (g.subs ++ [[]])
      g.nodes.length hsub0]
    have hc0 : (depIds deps).count g.nodes.length = 0 := by
      rw [List.count_eq_zero]
      intro hmem
      exact absurd (hdeps _ hmem) (lt_irrefl _)
    rw [hc0, ← hsl, getD_append_length]
    rfl
  · intro m hm
    show (subscribeDeps (g.subs ++ [[]]) g.nodes.length deps).getD m [] = _
    rw [subscribeDeps_getD g.nodes.length deps (g.subs ++ [[]]) m hsub0,
      getD_append_left _ _ _ (by rw [hsl]; exact hm)]
  · intro fuel vs st1 e1 heqd
    exact compute_miss _ fuel _ g.nodes.length deps comb vs st1 e1
      hnodes hcache heqd

/-- Claim C6 witness: defining a node over `gBase` (one input) with
operands `(3.0, node 0, node 0)` — node 0 used twice — yields id 1 with
an empty slot and empty publisher, and subscribes id 1 to node 0's
publisher exactly twice, once per edge. -/
theorem c6_define_node_witness :
    (defineNode gBase stBase
      [Operand.const 3, Operand.node 0, Operand.node 0] addComb).2.2 = 1 ∧
    (defineNode gBase stBase
      [Operand.const 3, Operand.node 0, Operand.node 0]
        addComb).1.subs.getD 0 [] = [1, 1] ∧
    (defineNode gBase stBase
      [Operand.const 3, Operand.node 0, Operand.node 0]
        addComb).1.subs.getD 1 [] = [] ∧
    (defineNode gBase stBase
      [Operand.const 3, Operand.node 0, Operand.node 0]
        addComb).2.1.cache.getD 1 none = none := by
  have h := c6_define_node gBase stBase
    [Operand.const 3, Operand.node 0, Operand.node 0] addComb rfl rfl
    (by decide)
  refine ⟨h.1, ?_, h.2.2.2.1, h.2.2.1⟩
  have h4 := h.2.2.2.2.1 0 (by decide)
  exact h4.trans (by decide)

/-- Claim C7: a node freshly returned by `create_input()` computes to 0
before any `set` call (the factory stores `0.0`). -/
theorem c7_create_input_zero (g : Graph) (st : St)
    (hal : st.vals.length = g.nodes.length) :
    ∀ fuel, computeNode (createInput g st).1 (fuel + 1)
        (createInput g st).2.1 (createInput g st).2.2 =
      some (0, (createInput g st).2.1, []) := by
  intro fuel
  have heqk : (createInput g st).1.nodes[(createInput g st).2.2]? =
      some NodeKind.input := by
    show (g.nodes ++ [NodeKind.input])[g.nodes.length]? = _
    exact List.getElem?_concat_length ..
  rw [compute_input _ fuel _ _ heqk]
  have hv : (st.vals ++ [(0 : Value)]).getD g.nodes.length (0 : Value) =
      (0 : Value) := by
    rw [← hal]
    exact getD_append_length st.vals 0 0
  show some ((st.vals ++ [(0 : Value)]).getD g.nodes.length 0,
    (createInput g st).2.1, ([] : List Ev)) =
    some ((0 : Value), (createInput g st).2.1, ([] : List Ev))
  rw [hv]

/-- Claim C7 witness: the first input created in an empty graph computes
to 0. -/
theorem c7_create_input_zero_witness :
    computeNode (createInput (Graph.mk [] []) (St.mk [] [])).1 1
        (createInput (Graph.mk [] []) (St.mk [] [])).2.1
        (createInput (Graph.mk [] []) (St.mk [] [])).2.2 =
      some (0, (createInput (Graph.mk [] []) (St.mk [] [])).2.1, []) :=
  c7_create_input_zero (Graph.mk [] []) (St.mk [] []) rfl 0

/-- Claim C8: the constant-literal graph `add(3.0, mul(2.0, 7.0))`
computes to exactly 17.0.  All the values involved are small integers,
on which IEEE binary32 addition and multiplication are exact, so the
exact-arithmetic model is faithful here. -/
theorem c8_constant_literal :
    (computeNode build8b.1 2 build8b.2.1 build8b.2.2).map (fun r => r.1) =
      some 17 := rfl

/-- Claim C9: under the acyclicity precondition — a topological rank
certificate for the dependency edges and (mirrored) for the subscription
edges — every `compute()` call and every `set()`/`publish()` invalidation
cascade terminates, with fuel bounds given by the ranks.  When acyclicity
is violated, the result is unbounded recursion, not a reported error: on
the self-dependent graph `gCyc`, `compute()` returns `none` (is still
recursing) for every fuel, and no operation detects the cycle or returns
a failure value. -/
theorem c9_termination (g : Graph) (rank : NodeId → Nat) (N : Nat) :
    (RankOk g rank → ∀ n st fuel, n < g.nodes.length → rank n < fuel →
      (computeNode g fuel st n).isSome) ∧
    (SubsOk g rank → (∀ k, k < g.nodes.length → rank k < N) →
      ∀ fuel n st, isComputedN g n = true → N + 1 ≤ fuel + rank n →
        (invalidateCache g fuel st n).isSome) ∧
    (SubsOk g rank → (∀ k, k < g.nodes.length → rank k < N) →
      ∀ fuel n v st, g.nodes[n]? = some NodeKind.input →
        N + 1 ≤ fuel + rank n → (setInput g fuel st n v).isSome) ∧
    (∀ fuel, computeNode gCyc fuel stCyc 0 = none) := by
  refine ⟨?_, ?_, ?_, compute_cyc⟩
  · intro hr n st fuel hn hf
    exact compute_total g rank hr fuel n st hn hf
  · intro hs hN fuel n st hc hf
    exact invalidate_total g rank N hs hN fuel n st hc hf
  · intro hs hN fuel n v st hin hf
    exact setInput_total g rank N hs hN fuel n v st hin hf

/-- Claim C9 witness on `gLine` (rank = identity, bound 2): compute,
invalidate and set all terminate with small fuel, and the cyclic graph's
compute is still `none` at fuel 5. -/
theorem c9_termination_witness :
    (computeNode gLine 2 stLine 1).isSome = true ∧
    (invalidateCache gLine 3 stLineFull 1).isSome = true ∧
    (setInput gLine 3 stLine 0 7).isSome = true ∧
    computeNode gCyc 5 stCyc 0 = none := by
  have h := c9_termination gLine (fun k => k) 2
  refine ⟨h.1 gLine_rankok 1 stLine 2 (by decide) (by decide),
    h.2.1 gLine_subsok ?_ 3 1 stLineFull rfl (by decide),
    h.2.2.1 gLine_subsok ?_ 3 0 7 stLine rfl (by decide),
    h.2.2.2 5⟩ <;>
  · intro k hk
    exact hk

theorem comb_reach_deps (g : Graph) (fuel : Nat)
    (ih : ∀ st n v st' evs, computeNode g fuel st n = some (v, st', evs) →
      ∀ k, Ev.combine k ∈ evs →
        k = n ∨ Relation.TransGen (depEdge g) n k) :
    ∀ deps st vs st' evs,
      evalDeps (computeNode g fuel) st deps = some (vs, st', evs) →
      ∀ k, Ev.combine k ∈ evs →
        ∃ m, Operand.node m ∈ deps ∧
          (k = m ∨ Relation.TransGen (depEdge g) m k) := by
  intro deps
  induction deps with
  | nil =>
    intro st vs st' evs hp k hk
    simp only [evalDeps, Option.some.injEq, Prod.mk.injEq] at hp
    obtain ⟨_, _, rfl⟩ := hp
    simp at hk
  | cons d rest ihd =>
    intro st vs st' evs hp k hk
    simp only [evalDeps] at hp
    split at hp
    · simp at hp
    · rename_i v1 st1 e1 heq1
      split at hp
      · simp at hp
      · rename_i vs2 st2 e2 heq2
        simp only [Option.some.injEq, Prod.mk.injEq] at hp
        obtain ⟨_, rfl, rfl⟩ := hp
        rcases List.mem_append.mp hk with hk | hk
        · cases d with
          | const c =>
            simp only [evalOp, Option.some.injEq, Prod.mk.injEq] at heq1
            obtain ⟨_, _, rfl⟩ := heq1
            simp at hk
          | node m =>
            exact ⟨m, List.mem_cons_self .., ih st m v1 st1 e1 heq1 k hk⟩
        · obtain ⟨m, hm, hr⟩ := ihd st1 vs2 st2 e2 heq2 k hk
          exact ⟨m, List.mem_cons_of_mem _ hm, hr⟩

/-- Every combiner run during `compute()` on `n` belongs to `n` itself or
to a transitive dependency of `n`: the traversal never leaves the
dependency cone of the computed node. -/
theorem comb_reach (g : Graph) :
    ∀ fuel st n v st' evs, computeNode g fuel st n = some (v, st', evs) →
      ∀ k, Ev.combine k ∈ evs →
        k = n ∨ Relation.TransGen (depEdge g) n k := by
  intro fuel
  induction fuel with
  | zero =>
    intro st n v st' evs h
    simp [computeNode] at h
  | succ f ihf =>
    intro st n v st' evs h
    simp only [computeNode] at h
    split at h
    · simp at h
    · simp only [Option.some.injEq, Prod.mk.injEq] at h
      obtain ⟨_, _, rfl⟩ := h
      intro k hk
      simp at hk
    · rename_i deps comb heqk
      split at h
      · rename_i v0 heqc
        simp only [Option.some.injEq, Prod.mk.injEq] at h
        obtain ⟨_, _, rfl⟩ := h
        intro k hk
        simp at hk
      · rename_i heqc
        split at h
        · simp at h
        · rename_i vs st1 e1 heq1
          simp only [Option.some.injEq, Prod.mk.injEq] at h
          obtain ⟨_, _, rfl⟩ := h
          intro k hk
          rcases List.mem_append.mp hk with hk | hk
          · obtain ⟨m, hm, hr⟩ :=
              comb_reach_deps g f ihf deps st vs st1 e1 heq1 k hk
            have hedge : depEdge g n m := ⟨deps, comb, heqk, hm⟩
            rcases hr with hr | hr
            · exact Or.inr (hr ▸ Relation.TransGen.single hedge)
            · exact Or.inr (Relation.TransGen.head hedge hr)
          · left
            simpa using hk

theorem gDia_depEdges : ∀ a b, depEdge gDia a b →
    (a = 1 ∧ b = 0) ∨ (a = 2 ∧ b = 0) ∨ (a = 3 ∧ (b = 1 ∨ b = 2)) := by
  intro a b h
  obtain ⟨deps, comb, heqk, hm⟩ := h
  rcases a with _ | _ | _ | _ | a
  · simp [gDia] at heqk
  · have hd : [Operand.node 0] = deps ∧ idComb = comb := by
      simpa [gDia, NodeKind.computed.injEq] using heqk
    rw [← hd.1] at hm
    have hb : b = 0 := by simpa using hm
    exact Or.inl ⟨rfl, hb⟩
  · have hd : [Operand.node 0] = deps ∧ idComb = comb := by
      simpa [gDia, NodeKind.computed.injEq] using heqk
    rw [← hd.1] at hm
    have hb : b = 0 := by simpa using hm
    exact Or.inr (Or.inl ⟨rfl, hb⟩)
  · have hd : [Operand.node 1, Operand.node 2] = deps ∧ addComb = comb := by
      simpa [gDia, NodeKind.computed.injEq] using heqk
    rw [← hd.1] at hm
    have hb : b = 1 ∨ b = 2 := by simpa using hm
    exact Or.inr (Or.inr ⟨rfl, hb⟩)
  · rw [List.getElem?_eq_none (show gDia.nodes.length ≤ a + 1 + 1 + 1 + 1 by
      show 4 ≤ a + 1 + 1 + 1 + 1
      omega)] at heqk
    cases heqk

theorem gDia_depReach1 : ∀ b, Relation.TransGen (depEdge gDia) 1 b →
    b = 0 := by
  intro b h
  induction h with
  | single hedge =>
    rcases gDia_depEdges _ _ hedge with ⟨h0, h1⟩ | ⟨h0, h1⟩ | ⟨h0, h1⟩
    · exact h1
    · exact absurd h0 (by decide)
    · exact absurd h0 (by decide)
  | tail hprev hedge ih =>
    rcases gDia_depEdges _ _ hedge with ⟨h0, h1⟩ | ⟨h0, h1⟩ | ⟨h0, h1⟩ <;>
      rw [ih] at h0 <;> exact absurd h0 (by decide)

/-- Claim C10: `compute()` is observationally pure except for filling
empty cache slots of the computed node's own dependency cone.  A
successful call leaves every input's stored value unchanged, emits no
invalidation broadcast at all (and, structurally, never touches any
publisher's subscriber list — the model keeps subscriber lists outside
the state `compute` threads, mirroring the source, whose compute path
never calls `subscribe_to_invalidate` or `publish_invalidate`), leaves
every full cache slot exactly as it was, confines every combiner run to
the node itself or one of its transitive dependencies, and changes a
slot only from empty to filled, the fill being announced by that node's
own combiner run and hence confined to the same dependency cone. -/
theorem c10_compute_frame (g : Graph) (fuel : Nat) (st : St) (n : NodeId)
    (v : Value) (st' : St) (evs : List Ev)
    (hal : st.cache.length = g.nodes.length)
    (h : computeNode g fuel st n = some (v, st', evs)) :
    st'.vals = st.vals ∧
    (∀ k, Ev.publish k ∉ evs) ∧
    (∀ k, st.cache.getD k none ≠ none →
      st'.cache.getD k none = st.cache.getD k none) ∧
    (∀ k, Ev.combine k ∈ evs →
      k = n ∨ Relation.TransGen (depEdge g) n k) ∧
    (∀ k, st'.cache.getD k none ≠ st.cache.getD k none →
      st.cache.getD k none = none ∧ st'.cache.getD k none ≠ none ∧
        Ev.combine k ∈ evs ∧
        (k = n ∨ Relation.TransGen (depEdge g) n k)) := by
  have O := compute_comp g fuel st n v st' evs hal h
  have hreach := comb_reach g fuel st n v st' evs h
  refine ⟨O.vals_eq, ?_, O.mono, hreach, ?_⟩
  · intro k hk
    obtain ⟨j, hj⟩ := O.evs_comb _ hk
    cases hj
  · intro k hk
    have hmem := O.changed_comb k hk
    obtain ⟨ha, hb⟩ := O.comb_spec k hmem
    exact ⟨ha, hb, hmem, hreach k hmem⟩

/-- Claim C10 witness on `gDia`: computing node 1 (a miss) leaves the
input values untouched, publishes nothing, preserves node 3's full slot,
the only change is announce-and-fill of node 1's own slot, and node 3 —
outside node 1's dependency cone — gets no combiner run. -/
theorem c10_compute_frame_witness :
    (St.mk ([5, 0, 0, 0] : List Value)
      [none, some 5, none, some 10]).vals = stDiaPart.vals ∧
    Ev.publish 1 ∉ [Ev.combine 1] ∧
    (St.mk ([5, 0, 0, 0] : List Value)
      [none, some 5, none, some 10]).cache.getD 3 none =
      stDiaPart.cache.getD 3 none ∧
    Ev.combine 3 ∉ [Ev.combine 1] := by
  have hcomp : computeNode gDia 2 stDiaPart 1 =
      some (5, St.mk [5, 0, 0, 0] [none, some 5, none, some 10],
        [Ev.combine 1]) := rfl
  have h := c10_compute_frame gDia 2 stDiaPart 1 5 _ _ rfl hcomp
  refine ⟨h.1, h.2.1 1, h.2.2.1 3 (by decide), ?_⟩
  intro hmem
  rcases h.2.2.2.1 3 hmem with hc | hc
  · exact absurd hc (by decide)
  · exact absurd (gDia_depReach1 3 hc) (by decide)

end CompGraph
